import Mathlib

/-!
Verification of the two-phase Darcy flow solver (`darcy-two-phase.py`).

The script couples a Darcy pressure/velocity equation to a saturation
transport equation.  Its pure numerical kernel consists of:

* the coefficient functions `lmbdainv` (inverse total mobility) and `F`
  (fractional flow), closed-form functions of the saturation `s`;
* the upwind split `un`, `un_h` of the previous-step normal velocity used
  by the facet stabilisation terms;
* the inflow saturation boundary condition `SaturationBC`;
* a Newton solver configured with `atol = 1e-12`, `rtol = 1e-6`,
  `maximum_iterations = 10`;
* the time-stepping loop `while t < T` with `dt = 0.01`, `T = 250*dt`.

Real-valued formulas are embedded over `ℝ`; the control-flow parts
(Newton driver, time loop) are modelled over `ℚ` with exact arithmetic.
-/

namespace TwoPhase

/-- Relative viscosity of water w.r.t. crude oil; the run constant
`mu_rel = 0.2` of the script. -/
noncomputable def mu_rel : ℝ := 0.2

/-- Total mobility inverse:
`lmbdainv(s) = 1.0/((1.0/mu_rel)*s**2 + (1.0 - s)**2)`, with the run
constant `mu_rel` made an explicit parameter `mur`. -/
noncomputable def lmbdainv (mur s : ℝ) : ℝ :=
  1 / ((1 / mur) * s ^ 2 + (1 - s) ^ 2)

/-- Fractional flow function:
`F(s) = s**2/(s**2 + mu_rel*(1.0 - s)**2)`, with the run constant
`mu_rel` made an explicit parameter `mur`. -/
noncomputable def F (mur s : ℝ) : ℝ :=
  s ^ 2 / (s ^ 2 + mur * (1 - s) ^ 2)

/-- The denominator of `lmbdainv` is strictly positive for `mur > 0`. -/
lemma lmbdainv_den_pos (mur s : ℝ) (hm : 0 < mur) :
    0 < (1 / mur) * s ^ 2 + (1 - s) ^ 2 := by
  rcases eq_or_ne s 0 with h | h
  · subst h; norm_num
  · have hs : 0 < s ^ 2 := by positivity
    have h1 : 0 < (1 / mur) * s ^ 2 := by positivity
    nlinarith [sq_nonneg (1 - s)]

/-- The denominator of `F` is strictly positive for `mur > 0`. -/
lemma F_den_pos (mur s : ℝ) (hm : 0 < mur) :
    0 < s ^ 2 + mur * (1 - s) ^ 2 := by
  rcases eq_or_ne s 0 with h | h
  · subst h; nlinarith
  · have hs : 0 < s ^ 2 := by positivity
    nlinarith [mul_nonneg hm.le (sq_nonneg (1 - s))]

/-- C1: for every real saturation value `s`, the coefficient functions
compute exactly the closed forms
`lambda_inv(s) = 1/((1/mu_rel)*s^2 + (1-s)^2)` and
`F(s) = s^2/(s^2 + mu_rel*(1-s)^2)`, with `mu_rel` the fixed positive
run constant, equal to `0.2` in the reference run. -/
theorem coefficient_closed_forms :
    mu_rel = 0.2 ∧ 0 < mu_rel ∧
    (∀ s : ℝ, lmbdainv mu_rel s = 1 / ((1 / mu_rel) * s ^ 2 + (1 - s) ^ 2)) ∧
    (∀ s : ℝ, F mu_rel s = s ^ 2 / (s ^ 2 + mu_rel * (1 - s) ^ 2)) :=
  ⟨rfl, by norm_num [mu_rel], fun _ => rfl, fun _ => rfl⟩

/-- C4: for every real `s` and every `mur > 0`, the denominators of
`lmbdainv` and `F` are nonzero (no division by zero), and
`lmbdainv mur s > 0`. -/
theorem denominators_nonzero (mur : ℝ) (hm : 0 < mur) (s : ℝ) :
    (1 / mur) * s ^ 2 + (1 - s) ^ 2 ≠ 0 ∧
    s ^ 2 + mur * (1 - s) ^ 2 ≠ 0 ∧
    0 < lmbdainv mur s := by
  have h1 := lmbdainv_den_pos mur s hm
  have h2 := F_den_pos mur s hm
  exact ⟨h1.ne', h2.ne', one_div_pos.mpr h1⟩

/-- Witness for C4 at `mur = 1/5`, `s = 3`. -/
theorem denominators_nonzero_witness :
    (0 : ℝ) < 1 / 5 ∧
    ((1 / (1 / 5 : ℝ)) * (3 : ℝ) ^ 2 + (1 - 3) ^ 2 ≠ 0 ∧
      (3 : ℝ) ^ 2 + (1 / 5) * (1 - 3) ^ 2 ≠ 0 ∧
      0 < lmbdainv (1 / 5) 3) :=
  ⟨by norm_num, denominators_nonzero (1 / 5) (by norm_num) 3⟩

/-- C10: for every real `s` and every `mur > 0`, the coefficient
functions satisfy `s^2 * lmbdainv(s) = mur * F(s)`. -/
theorem sq_mul_lmbdainv_eq_mur_mul_F (mur : ℝ) (hm : 0 < mur) (s : ℝ) :
    s ^ 2 * lmbdainv mur s = mur * F mur s := by
  have h1 := (lmbdainv_den_pos mur s hm).ne'
  have h2 := (F_den_pos mur s hm).ne'
  have hm' : mur ≠ 0 := hm.ne'
  have key : (1 / mur) * s ^ 2 + (1 - s) ^ 2 = (s ^ 2 + mur * (1 - s) ^ 2) / mur := by
    field_simp
    ring
  unfold lmbdainv F
  rw [key, one_div_div]
  ring

/-- Witness for C10 at `mur = 1/5`, `s = 2`. -/
theorem sq_mul_lmbdainv_eq_mur_mul_F_witness :
    (0 : ℝ) < 1 / 5 ∧ (2 : ℝ) ^ 2 * lmbdainv (1 / 5) 2 = (1 / 5) * F (1 / 5) 2 :=
  ⟨by norm_num, sq_mul_lmbdainv_eq_mur_mul_F (1 / 5) (by norm_num) 2⟩

/-- C3: for any `mur > 0`: `F 0 = 0`, `F 1 = 1`, `F` is monotonically
non-decreasing on `[0,1]`, and `F s ∈ [0,1]` for every `s ∈ [0,1]`. -/
theorem F_fractional_flow_props (mur : ℝ) (hm : 0 < mur) :
    F mur 0 = 0 ∧ F mur 1 = 1 ∧
    (∀ a b : ℝ, 0 ≤ a → a ≤ b → b ≤ 1 → F mur a ≤ F mur b) ∧
    (∀ s : ℝ, 0 ≤ s → s ≤ 1 → 0 ≤ F mur s ∧ F mur s ≤ 1) := by
  refine ⟨by unfold F; norm_num, by unfold F; norm_num, ?_, ?_⟩
  · intro a b ha hab hb1
    have ha1 : a ≤ 1 := hab.trans hb1
    have hb : 0 ≤ b := ha.trans hab
    have hda := F_den_pos mur a hm
    have hdb := F_den_pos mur b hm
    unfold F
    rw [div_le_div_iff₀ hda hdb]
    have key : a * (1 - b) ≤ b * (1 - a) := by nlinarith
    have hkey0 : 0 ≤ a * (1 - b) := by nlinarith
    nlinarith [mul_self_nonneg (a * (1 - b)), mul_self_nonneg (b * (1 - a)),
      mul_le_mul key key hkey0 (by nlinarith : (0:ℝ) ≤ b * (1 - a))]
  · intro s hs0 hs1
    have hd := F_den_pos mur s hm
    unfold F
    constructor
    · exact div_nonneg (sq_nonneg s) hd.le
    · rw [div_le_one hd]
      nlinarith [mul_nonneg hm.le (sq_nonneg (1 - s))]

/-- Witness for C3 at `mur = 1/5`. -/
theorem F_fractional_flow_props_witness :
    (0 : ℝ) < 1 / 5 ∧
    (F (1 / 5) 0 = 0 ∧ F (1 / 5) 1 = 1 ∧
      (∀ a b : ℝ, 0 ≤ a → a ≤ b → b ≤ 1 → F (1 / 5) a ≤ F (1 / 5) b) ∧
      (∀ s : ℝ, 0 ≤ s → s ≤ 1 → 0 ≤ F (1 / 5) s ∧ F (1 / 5) s ≤ 1)) :=
  ⟨by norm_num, F_fractional_flow_props (1 / 5) (by norm_num)⟩

/-- Upwind normal velocity on a facet:
`un = 0.5*(inner(u0, n) + sqrt(inner(u0, n)*inner(u0, n)))`, a function
of the previous-step normal velocity value `w = u0·n`. -/
noncomputable def un (w : ℝ) : ℝ := 0.5 * (w + Real.sqrt (w * w))

/-- Downwind (inflow) normal velocity on a facet:
`un_h = 0.5*(inner(u0, n) - sqrt(inner(u0, n)*inner(u0, n)))`. -/
noncomputable def un_h (w : ℝ) : ℝ := 0.5 * (w - Real.sqrt (w * w))

/-- Per-facet contribution of the interior-jump stabilisation term
`dt('+')*inner(jump(r), un('+')*F(s_mid)('+') - un('-')*F(s_mid)('-'))`,
with `jr` the jump of the test function, `wP`/`wM` the previous-step
normal velocity from the two sides and `FP`/`FM` the two side values of
`F(s_mid)`. -/
noncomputable def interior_stab (dt jr wP wM FP FM : ℝ) : ℝ :=
  dt * (jr * (un wP * FP - un wM * FM))

/-- Per-facet contribution of the boundary-inflow stabilisation term
`dt*r*un_h*sbar`, with `r` the test function value, `w` the previous-step
normal velocity and `sb` the prescribed inflow saturation. -/
noncomputable def boundary_stab (dt r w sb : ℝ) : ℝ :=
  dt * (r * (un_h w * sb))

/-- `sqrt (w*w)` in the upwind split is the absolute value. -/
lemma sqrt_self_mul_self (w : ℝ) : Real.sqrt (w * w) = |w| :=
  Real.sqrt_mul_self_eq_abs w

/-- C2: for every previous-step normal velocity value `w = u0·n`, the
upwind split satisfies `un = 0.5*(w + |w|) = max(w, 0)` and
`un_h = 0.5*(w - |w|) = min(w, 0)`; at `w = 0` both vanish, so such a
facet contributes zero flux to the interior-jump and boundary-inflow
stabilisation terms. -/
theorem upwind_split (w : ℝ) :
    un w = 0.5 * (w + |w|) ∧ un_h w = 0.5 * (w - |w|) ∧
    un w = max w 0 ∧ un_h w = min w 0 ∧
    un 0 = 0 ∧ un_h 0 = 0 ∧
    (∀ dt jr FP FM : ℝ, interior_stab dt jr 0 0 FP FM = 0) ∧
    (∀ dt r sb : ℝ, boundary_stab dt r 0 sb = 0) := by
  have habs : ∀ x : ℝ, un x = 0.5 * (x + |x|) := by
    intro x; unfold un; rw [sqrt_self_mul_self]
  have habs' : ∀ x : ℝ, un_h x = 0.5 * (x - |x|) := by
    intro x; unfold un_h; rw [sqrt_self_mul_self]
  have hmax : un w = max w 0 := by
    rcases le_total 0 w with h | h
    · rw [habs, abs_of_nonneg h, max_eq_left h]; ring
    · rw [habs, abs_of_nonpos h, max_eq_right h]; ring
  have hmin : un_h w = min w 0 := by
    rcases le_total 0 w with h | h
    · rw [habs', abs_of_nonneg h, min_eq_right h]; ring
    · rw [habs', abs_of_nonpos h, min_eq_left h]; ring
  have hz : un 0 = 0 := by rw [habs]; simp
  have hz' : un_h 0 = 0 := by rw [habs']; simp
  refine ⟨habs w, habs' w, hmax, hmin, hz, hz', ?_, ?_⟩
  · intro dt jr FP FM; unfold interior_stab; rw [hz]; ring
  · intro dt r sb; unfold boundary_stab; rw [hz']; ring

/-- Local facet data seen by the stabilisation terms: the fields prefixed
`u0n`/`s0` are evaluations of the previous-step state `U0`, the fields
`sP`, `sM` are evaluations of the current Newton iterate `U`. -/
structure FacetState where
  u0nP : ℝ
  u0nM : ℝ
  s0P : ℝ
  s0M : ℝ
  sP : ℝ
  sM : ℝ

/-- The three upwind velocity values used by the stabilisation terms
(`un('+')`, `un('-')` of the interior term and `un_h` of the boundary
term), as functions of the local facet data. -/
noncomputable def upwind_vels (st : FacetState) : ℝ × ℝ × ℝ :=
  (un st.u0nP, un st.u0nM, un_h st.u0nP)

/-- C7: the upwind velocities are functions of the previous-step state
`U0` only.  Two Newton iterates that share the same `U0` data (and may
differ arbitrarily in the current-iterate saturation values `sP`, `sM`)
produce identical upwind velocity values in the stabilisation. -/
theorem upwind_vels_frozen (st st' : FacetState)
    (h1 : st.u0nP = st'.u0nP) (h2 : st.u0nM = st'.u0nM)
    (_h3 : st.s0P = st'.s0P) (_h4 : st.s0M = st'.s0M) :
    upwind_vels st = upwind_vels st' := by
  unfold upwind_vels
  rw [h1, h2]

/-- Witness for C7: two facet states with the same `U0` data but
different current-iterate saturations yield the same upwind values. -/
theorem upwind_vels_frozen_witness :
    upwind_vels ⟨1, 2, 3, 4, 5, 6⟩ = upwind_vels ⟨1, 2, 3, 4, 7, 8⟩ :=
  upwind_vels_frozen ⟨1, 2, 3, 4, 5, 6⟩ ⟨1, 2, 3, 4, 7, 8⟩ rfl rfl rfl rfl

/-- The `DOLFIN_EPS` tolerance constant of the framework (`3.0e-16`). -/
noncomputable def DOLFIN_EPS : ℝ := 3e-16

/-- `SaturationBC.eval`: writes `values[0] = 1.0` when `x[0] < DOLFIN_EPS`
and otherwise leaves the output buffer entry (`values0`) unchanged; the
buffer is zero-initialised, so the untouched entry reads `0`. -/
noncomputable def SaturationBC_eval (values0 x0 : ℝ) : ℝ :=
  if x0 < DOLFIN_EPS then 1 else values0

/-- C9: with a zero-initialised output buffer, the inflow-saturation
boundary condition evaluates to `1` when the first coordinate `x0` is
within `DOLFIN_EPS` of zero and to `0` at every other boundary
position. -/
theorem saturation_bc_values (x0 : ℝ) :
    (x0 < DOLFIN_EPS → SaturationBC_eval 0 x0 = 1) ∧
    (DOLFIN_EPS ≤ x0 → SaturationBC_eval 0 x0 = 0) := by
  constructor
  · intro h; unfold SaturationBC_eval; rw [if_pos h]
  · intro h; unfold SaturationBC_eval; rw [if_neg (not_lt.mpr h)]

/-- Witness for C9 at the inflow corner `x0 = 0` and at `x0 = 1`. -/
theorem saturation_bc_values_witness :
    SaturationBC_eval 0 0 = 1 ∧ SaturationBC_eval 0 1 = 0 :=
  ⟨(saturation_bc_values 0).1 (by unfold DOLFIN_EPS; norm_num),
   (saturation_bc_values 1).2 (by unfold DOLFIN_EPS; norm_num)⟩

/-- Newton solver tolerances and iteration budget, as configured on the
script's `NewtonSolver` instance. -/
structure NewtonParams where
  atol : ℚ
  rtol : ℚ
  maxiter : ℕ

/-- The script's configuration: `absolute_tolerance = 1e-12`,
`relative_tolerance = 1e-6`, `maximum_iterations = 10`. -/
def solverParams : NewtonParams := ⟨1e-12, 1e-6, 10⟩

/-- Outcome of one Newton solve: convergence after a number of update
iterations, or `NewtonDivergence` once the iteration budget is spent. -/
inductive NewtonResult where
  | success (iters : ℕ)
  | divergence
  deriving DecidableEq

/-- Convergence test of the Newton driver: `‖L‖ < atol` or
`‖L‖ < rtol * ‖L₀‖` against the first-iteration residual norm `r0`. -/
def newtonConverged (p : NewtonParams) (r0 r : ℚ) : Bool :=
  decide (r < p.atol) || decide (r < p.rtol * r0)

/-- Modelled from the spec: the iteration driver behind `solver.solve` is
framework code not present in the repository source; only its
configuration and invocation are.  Following the spec's contract, the
driver checks the residual norm `res k` at iteration count `k`, returns
success at the first converged `k`, and moves on to iteration `k + 1`
otherwise, within the given fuel. -/
def newtonLoop (p : NewtonParams) (res : ℕ → ℚ) (r0 : ℚ) : ℕ → ℕ → NewtonResult
  | 0, _ => NewtonResult.divergence
  | fuel + 1, k =>
    if newtonConverged p r0 (res k) then NewtonResult.success k
    else newtonLoop p res r0 fuel (k + 1)

/-- Modelled from the spec: one Newton solve over the abstract sequence
`res` of residual norms (`res k` is `‖L‖` after `k` update iterations,
`res 0` is the first-iteration residual norm `‖L₀‖`); it performs at most
`maxiter` update iterations and otherwise fails with divergence. -/
def newtonSolve (p : NewtonParams) (res : ℕ → ℚ) : NewtonResult :=
  newtonLoop p res (res 0) (p.maxiter + 1) 0

/-- A successful `newtonLoop` run stops at the first converged iteration
within its fuel. -/
lemma newtonLoop_success (p : NewtonParams) (res : ℕ → ℚ) (r0 : ℚ) :
    ∀ (fuel k0 k : ℕ), newtonLoop p res r0 fuel k0 = NewtonResult.success k →
      k0 ≤ k ∧ k < k0 + fuel ∧ newtonConverged p r0 (res k) = true ∧
      ∀ j, k0 ≤ j → j < k → newtonConverged p r0 (res j) = false := by
  intro fuel
  induction fuel with
  | zero => intro k0 k h; simp [newtonLoop] at h
  | succ n ih =>
    intro k0 k h
    by_cases hc : newtonConverged p r0 (res k0) = true
    · rw [newtonLoop, if_pos hc] at h
      obtain rfl : k0 = k := by injection h
      exact ⟨le_refl _, by omega, hc, fun j hj hj' => by omega⟩
    · rw [newtonLoop, if_neg hc] at h
      obtain ⟨h1, h2, h3, h4⟩ := ih (k0 + 1) k h
      refine ⟨by omega, by omega, h3, fun j hj hj' => ?_⟩
      rcases Nat.eq_or_lt_of_le hj with rfl | hj2
      · exact Bool.eq_false_iff.mpr hc
      · exact h4 j hj2 hj'

/-- `newtonLoop` diverges when no iteration within its fuel converges. -/
lemma newtonLoop_divergence (p : NewtonParams) (res : ℕ → ℚ) (r0 : ℚ) :
    ∀ (fuel k0 : ℕ),
      (∀ j, k0 ≤ j → j < k0 + fuel → newtonConverged p r0 (res j) = false) →
      newtonLoop p res r0 fuel k0 = NewtonResult.divergence := by
  intro fuel
  induction fuel with
  | zero => intro k0 _; rfl
  | succ n ih =>
    intro k0 hall
    have hc : newtonConverged p r0 (res k0) = false :=
      hall k0 (le_refl _) (by omega)
    rw [newtonLoop, if_neg (by simp [hc])]
    exact ih (k0 + 1) fun j hj hj' => hall j (by omega) (by omega)

/-- C5: with the run's configuration (`atol = 1e-12`, `rtol = 1e-6`,
`max_iterations = 10`), the per-step Newton solve succeeds exactly at the
first iteration whose residual norm satisfies `‖L‖ < atol` or
`‖L‖ < rtol * ‖L₀‖` (with `‖L₀‖` the first-iteration residual norm), it
never iterates past 10 update iterations, and when no iteration up to 10
satisfies either tolerance it fails with `NewtonDivergence`. -/
theorem newton_termination (res : ℕ → ℚ) :
    solverParams.atol = 1e-12 ∧ solverParams.rtol = 1e-6 ∧
    solverParams.maxiter = 10 ∧
    (∀ k, newtonSolve solverParams res = NewtonResult.success k →
      k ≤ 10 ∧ (res k < 1e-12 ∨ res k < 1e-6 * res 0) ∧
      ∀ j < k, ¬(res j < 1e-12 ∨ res j < 1e-6 * res 0)) ∧
    ((∀ k ≤ 10, ¬(res k < 1e-12 ∨ res k < 1e-6 * res 0)) →
      newtonSolve solverParams res = NewtonResult.divergence) := by
  have hbr : ∀ k, newtonConverged solverParams (res 0) (res k) = true ↔
      (res k < 1e-12 ∨ res k < 1e-6 * res 0) := by
    intro k
    simp [newtonConverged, solverParams]
  refine ⟨rfl, rfl, rfl, ?_, ?_⟩
  · intro k h
    have h' : newtonLoop solverParams res (res 0) 11 0 = NewtonResult.success k := h
    obtain ⟨h1, h2, h3, h4⟩ :=
      newtonLoop_success solverParams res (res 0) 11 0 k h'
    refine ⟨by omega, (hbr k).mp h3, fun j hj hp => ?_⟩
    have hf := h4 j (Nat.zero_le j) hj
    have ht := (hbr j).mpr hp
    rw [hf] at ht
    exact Bool.noConfusion ht
  · intro hall
    show newtonLoop solverParams res (res 0) 11 0 = NewtonResult.divergence
    refine newtonLoop_divergence solverParams res (res 0) 11 0 fun j _ hj => ?_
    exact Bool.eq_false_iff.mpr fun ht => hall j (by omega) ((hbr j).mp ht)

/-- Witness for C5: a residual sequence stuck at `1` never satisfies
either tolerance and the solve reports divergence. -/
theorem newton_termination_witness :
    newtonSolve solverParams (fun _ => 1) = NewtonResult.divergence :=
  (newton_termination (fun _ => 1)).2.2.2.2
    (by intro k _; push_neg; exact ⟨by norm_num, by norm_num⟩)

/-- Time step of the script, `dt = Constant(0.01)`, as an exact
rational. -/
def dt : ℚ := 1 / 100

/-- Total time of the script, `T = 250*float(dt)`. -/
def T : ℚ := 250 * dt

/-- State carried by the time loop: the time `t`, the current mixed-field
vector `U` and the previous-step snapshot `U0`. -/
structure SimState (α : Type) where
  t : ℚ
  U : α
  U0 : α

/-- One pass of the body of `while t < T` in source order: `t += dt`,
then the snapshot `U0.assign(U)`, then `solver.solve` overwrites `U`
in place; `solve` abstracts the converged Newton result as a function of
the new time and the previous field state. -/
def stepSim {α : Type} (solve : ℚ → α → α) (st : SimState α) : SimState α :=
  { t := st.t + dt, U := solve (st.t + dt) st.U, U0 := st.U }

/-- The time loop `while t < T`, returning the number of executed steps
and the final state; `fuel` bounds the recursion. -/
def runSim {α : Type} (solve : ℚ → α → α) : ℕ → SimState α → ℕ × SimState α
  | 0, st => (0, st)
  | fuel + 1, st =>
    if st.t < T then
      ((runSim solve fuel (stepSim solve st)).1 + 1,
       (runSim solve fuel (stepSim solve st)).2)
    else (0, st)

/-- The time trajectory of the loop alone: number of executed steps and
final time, starting from time `t`. -/
def runT : ℕ → ℚ → ℕ × ℚ
  | 0, t => (0, t)
  | fuel + 1, t =>
    if t < T then
      ((runT fuel (t + dt)).1 + 1, (runT fuel (t + dt)).2)
    else (0, t)

/-- The step count and final time of `runSim` do not depend on the field
state: they project onto `runT`. -/
lemma runSim_count_t {α : Type} (solve : ℚ → α → α) :
    ∀ (fuel : ℕ) (st : SimState α),
      (runSim solve fuel st).1 = (runT fuel st.t).1 ∧
      (runSim solve fuel st).2.t = (runT fuel st.t).2 := by
  intro fuel
  induction fuel with
  | zero => intro st; exact ⟨rfl, rfl⟩
  | succ n ih =>
    intro st
    by_cases h : st.t < T
    · have ih' := ih (stepSim solve st)
      rw [show (stepSim solve st).t = st.t + dt from rfl] at ih'
      simp only [runSim, runT, if_pos h]
      exact ⟨by rw [ih'.1], ih'.2⟩
    · simp [runSim, runT, if_neg h]

/-- Starting from `t = k*dt` with `250 - k` steps still to run, the loop
executes exactly those steps and stops at time `250*dt`, given enough
fuel. -/
lemma runT_steps : ∀ (fuel n k : ℕ), k + n = 250 → n < fuel →
    runT fuel ((k : ℚ) * dt) = (n, 250 * dt) := by
  intro fuel
  induction fuel with
  | zero => intro n k _ h; omega
  | succ m ih =>
    intro n k hk hn
    rcases n with _ | n'
    · obtain rfl : k = 250 := by omega
      have hc : ¬(((250 : ℕ) : ℚ) * dt < T) := by norm_num [T]
      simp only [runT, if_neg hc, Prod.mk.injEq]
      norm_num
    · have hdt : (0 : ℚ) < dt := by norm_num [dt]
      have hkq : (k : ℚ) < 250 := by exact_mod_cast (by omega : k < 250)
      have hklt : (k : ℚ) * dt < T :=
        calc (k : ℚ) * dt < 250 * dt := mul_lt_mul_of_pos_right hkq hdt
        _ = T := rfl
      simp only [runT, if_pos hklt]
      have hstep : (k : ℚ) * dt + dt = ((k + 1 : ℕ) : ℚ) * dt := by
        push_cast
        ring
      rw [hstep, ih n' (k + 1) (by omega) (by omega)]

/-- C6: under exact arithmetic, the time loop started from `t = 0` with
`dt = 0.01` and `T = 250*dt` snapshots `U0 ← U` and increments `t` by
`dt` exactly once per step, continues while `t < T`, and on normal
completion executes exactly 250 steps with final `t = 250*dt`. -/
theorem time_loop_runs_250_steps :
    dt = 1 / 100 ∧ T = 250 * dt ∧
    (∀ (α : Type) (solve : ℚ → α → α) (st : SimState α),
      (stepSim solve st).U0 = st.U ∧ (stepSim solve st).t = st.t + dt) ∧
    (∀ (α : Type) (solve : ℚ → α → α) (U : α),
      (runSim solve 260 ⟨0, U, U⟩).1 = 250 ∧
      (runSim solve 260 ⟨0, U, U⟩).2.t = 250 * dt) := by
  refine ⟨rfl, rfl, fun α solve st => ⟨rfl, rfl⟩, fun α solve U => ?_⟩
  have h := runSim_count_t solve 260 (⟨0, U, U⟩ : SimState α)
  have h0 : (⟨0, U, U⟩ : SimState α).t = 0 := rfl
  rw [h0] at h
  have hT : runT 260 0 = (250, 250 * dt) := by
    have h250 := runT_steps 260 250 0 (by omega) (by omega)
    simpa using h250
  exact ⟨by rw [h.1, hT], by rw [h.2, hT]⟩

/-- Outcome of a run whose Newton solve may fail: normal completion, or a
fatal abort at the time of the failed step. -/
inductive RunOutcome (α : Type) where
  | done (st : SimState α)
  | failed (t : ℚ)

/-- The time loop with the fallible per-step Newton solve and the state
sink made explicit: a successful step appends exactly one export event
`(t, U)` carrying the converged state, after the solve; a step whose
solve fails aborts the run immediately, exporting nothing for that
step. -/
def runExports {α : Type} (solve : ℚ → α → Option α) :
    ℕ → SimState α → List (ℚ × α) × RunOutcome α
  | 0, st => ([], RunOutcome.done st)
  | fuel + 1, st =>
    if st.t < T then
      match solve (st.t + dt) st.U with
      | none => ([], RunOutcome.failed (st.t + dt))
      | some u1 =>
        ((st.t + dt, u1) :: (runExports solve fuel ⟨st.t + dt, u1, st.U⟩).1,
         (runExports solve fuel ⟨st.t + dt, u1, st.U⟩).2)
    else ([], RunOutcome.done st)

/-- When every solve succeeds, the run emits one export event per
executed step. -/
lemma runExports_length {α : Type} (solve : ℚ → α → Option α)
    (htotal : ∀ t u, (solve t u).isSome = true) :
    ∀ (fuel : ℕ) (st : SimState α),
      (runExports solve fuel st).1.length = (runT fuel st.t).1 := by
  intro fuel
  induction fuel with
  | zero => intro st; rfl
  | succ n ih =>
    intro st
    by_cases h : st.t < T
    · obtain ⟨u1, hu⟩ := Option.isSome_iff_exists.mp (htotal (st.t + dt) st.U)
      have ih' := ih ⟨st.t + dt, u1, st.U⟩
      rw [show (⟨st.t + dt, u1, st.U⟩ : SimState α).t = st.t + dt from rfl] at ih'
      simp only [runExports, runT, if_pos h, hu, List.length_cons]
      rw [ih']
    · simp [runExports, runT, if_neg h]

/-- C8: each successful step invokes the state sink exactly once, with
the converged state, after the solve; a step whose Newton solve fails
exports nothing and aborts the run; with a never-failing solve the run
emits exactly one export per executed step. -/
theorem export_once_per_step {α : Type} (solve : ℚ → α → Option α)
    (fuel : ℕ) (st : SimState α) :
    (st.t < T → solve (st.t + dt) st.U = none →
      runExports solve (fuel + 1) st = ([], RunOutcome.failed (st.t + dt))) ∧
    (∀ u1, st.t < T → solve (st.t + dt) st.U = some u1 →
      runExports solve (fuel + 1) st =
        ((st.t + dt, u1) :: (runExports solve fuel ⟨st.t + dt, u1, st.U⟩).1,
         (runExports solve fuel ⟨st.t + dt, u1, st.U⟩).2)) ∧
    ((∀ t u, (solve t u).isSome = true) →
      (runExports solve fuel st).1.length = (runT fuel st.t).1) := by
  refine ⟨?_, ?_, fun htotal => runExports_length solve htotal fuel st⟩
  · intro h hn
    simp only [runExports, if_pos h, hn]
  · intro u1 h hs
    simp only [runExports, if_pos h, hs]

/-- Witness for C8: a solve that always fails exports nothing and aborts;
a solve that always succeeds exports once per executed step. -/
theorem export_once_per_step_witness :
    runExports (fun _ _ => (none : Option ℚ)) 1 ⟨0, 0, 0⟩ =
      ([], RunOutcome.failed (0 + dt)) ∧
    (runExports (fun _ u => some (u : ℚ)) 5 ⟨0, 0, 0⟩).1.length = (runT 5 0).1 :=
  ⟨(export_once_per_step (fun _ _ => (none : Option ℚ)) 0 ⟨0, 0, 0⟩).1
      (by norm_num [T, dt]) rfl,
   (export_once_per_step (fun _ u => some (u : ℚ)) 5 ⟨0, 0, 0⟩).2.2
      (fun _ _ => rfl)⟩

end TwoPhase
